import Mathlib

/-!
Verification development for the RAG pipeline of this repository.

The Python sources are shallowly embedded over `List Char` (Python `str`),
`Nat`/`Int`/`ℚ` (Python `int`/`float`, floats idealized as exact rationals)
and `Option` (Python `None`).  Each definition carries a comment pointing to
the source function it embeds.

Embedded files:
- `app/ingestion/pymupdf_loader.py` (normalizer, packer, document builder)
- `app/retriever/query.py`          (filtering, dedupe, retrieval, context)
- `app/summarizer/ai_summary.py`    (RAG pipeline, previews, relevance)
-/

/-!  # Definitions  -/

/-- Python whitespace characters as stripped by `str.strip()` / matched by
regex `\s` (ASCII range, which is all the sources rely on). -/
def isPyWs (c : Char) : Bool :=
  c = ' ' || c = '\t' || c = '\n' || c = '\r' || c = '\x0b' || c = '\x0c'

/-- Python `str.lstrip()` (drop leading whitespace). -/
def pyLstrip (l : List Char) : List Char := l.dropWhile isPyWs

/-- Python `str.rstrip()` (drop trailing whitespace). -/
def pyRstrip (l : List Char) : List Char := (l.reverse.dropWhile isPyWs).reverse

/-- Python `str.strip()`. -/
def pyStrip (l : List Char) : List Char := pyRstrip (pyLstrip l)

/-- Python substring containment `needle in hay` (for nonempty needles). -/
def listContains (needle hay : List Char) : Bool :=
  match hay with
  | [] => needle.isEmpty
  | _ :: t => needle.isPrefixOf hay || listContains needle t

/-- Python word character (regex `\w`, ASCII view): letters, digits, `_`. -/
def isWordChar (c : Char) : Bool := c.isAlphanum || c = '_'

/-- Sentence-ending punctuation, the class `[.!?]` used by the sources. -/
def isSentPunct (c : Char) : Bool := c = '.' || c = '!' || c = '?'

/-- Whether a list starts with a whitespace character. -/
def headIsWs : List Char → Bool
  | c :: _ => isPyWs c
  | [] => false

/-- Whether a list starts with a space or tab (regex `[ \t]`). -/
def isSpTab (c : Char) : Bool := c = ' ' || c = '\t'

/-- Whether a list starts with a newline. -/
def headIsNL : List Char → Bool
  | '\n' :: _ => true
  | _ => false

/-- Whether a list starts with a space or tab. -/
def headIsSpTab : List Char → Bool
  | c :: _ => isSpTab c
  | [] => false

/-- Number of whitespace-separated words, i.e. Python `len(t.split())`:
the number of maximal non-whitespace runs.  The boolean argument records
whether the previous character was part of a word. -/
def countWordsGo : Bool → List Char → Nat
  | _, [] => 0
  | inw, c :: rest =>
    if isPyWs c then countWordsGo false rest
    else (if inw then 0 else 1) + countWordsGo true rest

/-- Python `len(t.split())`. -/
def countWords (l : List Char) : Nat := countWordsGo false l

/-- Python `prev[-n:]` for `n > 0`: the last `min n (length)` characters. -/
def takeRightN (n : Nat) (l : List Char) : List Char := l.drop (l.length - n)

/-!  ## `app/ingestion/pymupdf_loader.py` — text normalizer  -/

/-- Embeds `text.replace("\r\n", "\n").replace("\r", "\n")`
(`clean_text`, pymupdf_loader.py line 53). -/
def normNewlines : List Char → List Char
  | '\r' :: '\n' :: rest => '\n' :: normNewlines rest
  | '\r' :: rest => '\n' :: normNewlines rest
  | c :: rest => c :: normNewlines rest
  | [] => []

/-- Embeds `re.sub(r"(\w)-\n(\w)", r"\1\2", text)` — de-hyphenation across a line
break (`clean_text`, line 56).  Matches are found left to right and scanning
resumes after each replacement, exactly as `re.sub` does. -/
def fixHyphen : List Char → List Char
  | a :: '-' :: '\n' :: b :: rest =>
    if isWordChar a && isWordChar b then a :: b :: fixHyphen rest
    else a :: fixHyphen ('-' :: '\n' :: b :: rest)
  | a :: rest => a :: fixHyphen rest
  | [] => []

/-- Embeds `re.sub(r"(?<!\n)\n(?!\n)", " ", text)` — merge single newlines inside a
paragraph into spaces (`clean_text`, line 60).  The boolean tracks whether
the previous character of the original string was a newline (the lookbehind
refers to the original string in `re.sub`). -/
def mergeNLGo : Bool → List Char → List Char
  | prevNL, '\n' :: rest =>
    if prevNL || headIsNL rest then '\n' :: mergeNLGo true rest
    else ' ' :: mergeNLGo true rest
  | _, c :: rest => c :: mergeNLGo false rest
  | _, [] => []

/-- Embeds `re.sub` of three or more newlines to exactly two — collapse runs of three or more
newlines to exactly two (`clean_text`, line 63).  The boolean is true while
skipping the remainder of a run that has already been replaced. -/
def collapseNL3Go : Bool → List Char → List Char
  | true, '\n' :: rest => collapseNL3Go true rest
  | _, '\n' :: '\n' :: '\n' :: rest => '\n' :: '\n' :: collapseNL3Go true rest
  | _, c :: rest => c :: collapseNL3Go false rest
  | _, [] => []

/-- Embeds `re.sub` of runs of two or more spaces/tabs to one space — collapse runs of two or more
spaces/tabs to one space (`clean_text`, line 66). -/
def collapseSpTabGo : Bool → List Char → List Char
  | skip, c :: rest =>
    if skip && isSpTab c then collapseSpTabGo true rest
    else if isSpTab c && headIsSpTab rest then ' ' :: collapseSpTabGo true rest
    else c :: collapseSpTabGo false rest
  | _, [] => []

/-- Embeds `clean_text` (pymupdf_loader.py lines 43-68): light normalization —
line endings, de-hyphenation, merging intra-paragraph line wraps, blank-line
and space collapsing, final strip.  Empty input yields the empty string. -/
def clean_text (text : List Char) : List Char :=
  if text.isEmpty then []
  else
    pyStrip (collapseSpTabGo false (collapseNL3Go false
      (mergeNLGo false (fixHyphen (normNewlines text)))))

/-- Embeds `text.split("\n\n")` — Python `str.split` on the two-character separator,
leftmost non-overlapping occurrences. -/
def splitOnNN : List Char → List (List Char)
  | '\n' :: '\n' :: rest => [] :: splitOnNN rest
  | c :: rest =>
    match splitOnNN rest with
    | r :: rs => (c :: r) :: rs
    | [] => [[c]]
  | [] => [[]]

/-- Embeds `split_into_paragraphs` (pymupdf_loader.py lines 71-72):
`[p.strip() for p in text.split("\n\n") if p.strip()]`. -/
def split_into_paragraphs (text : List Char) : List (List Char) :=
  ((splitOnNN text).map pyStrip).filter (fun p => !p.isEmpty)

/-- Splitting on `re.split(r"(?<=[.!?])\s+", t)`: a split point is a maximal
whitespace run immediately preceded by `.`, `!` or `?`; the whitespace is
consumed.  The boolean is true while consuming such a run. -/
def splitSentGo : Bool → List Char → List (List Char)
  | skip, c :: rest =>
    if skip && isPyWs c then splitSentGo true rest
    else if isSentPunct c && headIsWs rest then [c] :: splitSentGo true rest
    else
      match splitSentGo false rest with
      | r :: rs => (c :: r) :: rs
      | [] => [[c]]
  | _, [] => [[]]

/-- Embeds `split_into_sentences` (pymupdf_loader.py lines 75-83). -/
def split_into_sentences (text : List Char) : List (List Char) :=
  let t := pyStrip text
  if t.isEmpty then []
  else ((splitSentGo false t).map pyStrip).filter (fun s => !s.isEmpty)

/-- The character set of `lstrip(".… ")` in `strip_leading_dots`. -/
def isDotSetChar (c : Char) : Bool := c = '.' || c = '…' || c = ' '

/-- The loop condition of `strip_leading_dots` (pymupdf_loader.py line 88):
`t.startswith("...") or t.startswith("…") or t.startswith(".")`. -/
def startsJunk (t : List Char) : Bool :=
  ['.', '.', '.'].isPrefixOf t || ['…'].isPrefixOf t || ['.'].isPrefixOf t

/-- The `while` loop of `strip_leading_dots` (pymupdf_loader.py lines 88-89):
while the text starts with `...`, `…` or `.`, do `t.lstrip(".… ").lstrip()`.
Total because each iteration strictly shortens the text. -/
def stripJunkLoop (t : List Char) : List Char :=
  if h : startsJunk t then stripJunkLoop (pyLstrip (t.dropWhile isDotSetChar))
  else t
termination_by t.length
decreasing_by
  cases t with
  | nil => simp [startsJunk] at h
  | cons c rest =>
    have hc : isDotSetChar c = true := by
      simp only [startsJunk, List.isPrefixOf, Bool.or_eq_true, Bool.and_eq_true,
        beq_iff_eq, true_and, and_true] at h
      simp only [isDotSetChar, Bool.or_eq_true, decide_eq_true_eq]
      rcases h with (h | h) | h <;>
        first
          | exact Or.inl (Or.inl h.1.symm)
          | exact Or.inl (Or.inr h.1.symm)
          | exact Or.inl (Or.inl h.symm)
          | exact Or.inl (Or.inr h.symm)
    calc (pyLstrip ((c :: rest).dropWhile isDotSetChar)).length
        ≤ ((c :: rest).dropWhile isDotSetChar).length :=
          (List.dropWhile_sublist _).length_le
      _ < (c :: rest).length := by
          rw [List.dropWhile_cons_of_pos hc]
          exact Nat.lt_succ_of_le (List.dropWhile_sublist _).length_le

/-- Embeds `strip_leading_dots` (pymupdf_loader.py lines 86-90).  The identical
code also appears as `Retriever._strip_leading_junk` (query.py lines 26-31)
and `_strip_leading_junk` (ai_summary.py lines 9-13). -/
def strip_leading_dots (text : List Char) : List Char :=
  stripJunkLoop (pyLstrip text)

/-- A character dropped by the junk-stripping loop: `.`, `…` or whitespace. -/
def isJunkChar (c : Char) : Bool := isDotSetChar c || isPyWs c

/-!  ## `app/ingestion/pymupdf_loader.py` — overlap and packing  -/

/-- No sentence-ending punctuation anywhere in the list. -/
def noSentPunct (l : List Char) : Bool := l.all (fun c => !isSentPunct c)

/-- Search for `re.search(r"([.!?])\s+[^.!?]*$", tail)` (apply_overlap,
pymupdf_loader.py line 104), returning `m.start(1)`.  Position `i` matches
exactly when `tail[i]` is `.`/`!`/`?`, `tail[i+1]` is whitespace, and no
sentence punctuation occurs after `tail[i+1]` (otherwise `[^.!?]*` cannot
reach the end of the string); `re.search` returns the leftmost match. -/
def findBoundaryGo : List Char → Nat → Option Nat
  | c :: rest, i =>
    if isSentPunct c && headIsWs rest && noSentPunct rest.tail then some i
    else findBoundaryGo rest (i + 1)
  | [], _ => none

/-- Leftmost match position of the overlap boundary regex. -/
def findBoundary (tail : List Char) : Option Nat := findBoundaryGo tail 0

/-- Embeds `apply_overlap` (pymupdf_loader.py lines 93-108): starting content for
the next chunk from the end of the previous chunk, trying to start at a
sentence boundary. -/
def apply_overlap (prev_chunk : List Char) (overlap_chars : Nat) : List (List Char) :=
  if overlap_chars = 0 || prev_chunk.isEmpty then []
  else
    let tail0 := pyStrip (takeRightN overlap_chars prev_chunk)
    let tail1 :=
      match findBoundary tail0 with
      | some i => pyStrip (tail0.drop (i + 1))
      | none => tail0
    if tail1.isEmpty then [] else [tail1]

/-- Embeds `current_len()` inside `pack_text_into_chunks` (pymupdf_loader.py lines
118-120): sum of unit lengths plus `max 0 (count - 1)` separator characters
(note: the code under-counts the actual `"\n\n"` separators by one
character each). -/
def clen (current : List (List Char)) : Nat :=
  (current.map List.length).sum + (current.length - 1)

/-- Embeds `"\n\n".join(current)`. -/
def joinNN : List (List Char) → List Char
  | [] => []
  | [x] => x
  | x :: y :: rest => x ++ '\n' :: '\n' :: joinNN (y :: rest)

/-- One iteration of the packing loop body for a packable unit `u` with check
separator width `sep` (2 in the paragraph branch, line 126; 1 in the sentence
branch, line 135): flush the current chunk when `u` does not fit, seeding the
new chunk from `apply_overlap`, then append `u` to the current chunk.  The
state is `(chunks, current)`. -/
def pushUnit (chunk_size chunk_overlap : Nat)
    (st : List (List Char) × List (List Char)) (sep : Nat) (u : List Char) :
    List (List Char) × List (List Char) :=
  if !st.2.isEmpty && decide (chunk_size < clen st.2 + sep + u.length) then
    let chunk := pyStrip (joinNN st.2)
    (st.1 ++ [chunk], apply_overlap chunk chunk_overlap ++ [u])
  else (st.1, st.2 ++ [u])

/-- The stream of packable units of `pack_text_into_chunks` (lines 124-139):
each short paragraph is one unit (checked with separator width 2); a
paragraph longer than `chunk_size` contributes its sentences as units
(checked with separator width 1). -/
def packUnits (chunk_size : Nat) (text : List Char) : List (Nat × List Char) :=
  (split_into_paragraphs text).flatMap fun p =>
    if p.length ≤ chunk_size then [(2, p)]
    else (split_into_sentences p).map fun s => (1, s)

/-- The chunk list of `pack_text_into_chunks` before final cleanup
(pymupdf_loader.py lines 115-142): fold the loop body over the unit stream,
then flush the remaining current chunk if nonempty. -/
def packChunksRaw (text : List Char) (chunk_size chunk_overlap : Nat) :
    List (List Char) :=
  let st := (packUnits chunk_size text).foldl
    (fun st su => pushUnit chunk_size chunk_overlap st su.1 su.2) ([], [])
  if !st.2.isEmpty then st.1 ++ [pyStrip (joinNN st.2)] else st.1

/-- Embeds `pack_text_into_chunks` (pymupdf_loader.py lines 111-144); the final
line filters empty chunks and strips leading dot artifacts:
`[strip_leading_dots(c) for c in chunks if c.strip()]`. -/
def pack_text_into_chunks (text : List Char) (chunk_size chunk_overlap : Nat) :
    List (List Char) :=
  ((packChunksRaw text chunk_size chunk_overlap).filter
    (fun c => !(pyStrip c).isEmpty)).map strip_leading_dots

/-- Executable twin of `pack_text_into_chunks` with the junk-stripping loop
replaced by its `dropWhile` characterization (see `strip_leading_dots_eq`);
used to evaluate the packer on concrete inputs. -/
def packTextExec (text : List Char) (chunk_size chunk_overlap : Nat) :
    List (List Char) :=
  ((packChunksRaw text chunk_size chunk_overlap).filter
    (fun c => !(pyStrip c).isEmpty)).map (fun c => c.dropWhile isJunkChar)

/-- The length of the longest packable unit of a text (0 when there is
none); the soft-cap bound on chunk lengths is stated in terms of it. -/
def maxUnitLen (chunk_size : Nat) (text : List Char) : Nat :=
  ((packUnits chunk_size text).map fun su => su.2.length).foldr max 0

/-!  ## `app/ingestion/pymupdf_loader.py` — document builder  -/

/-- One extracted PDF page as produced by `extract_text_from_pdf`
(pymupdf_loader.py lines 10-33): page text plus 1-based page number. -/
structure PageData where
  page_content : List Char
  page_number : Nat
deriving DecidableEq

/-- A langchain `Document` as built by `chunk_text_by_pages`: chunk content
plus metadata `source`, `page`, `chunk_index`, `total_chunks`. -/
structure PyDocument where
  page_content : List Char
  source : List Char
  page : Nat
  chunk_index : Nat
  total_chunks : Nat
deriving DecidableEq

/-- Embeds `chunk_text_by_pages` (pymupdf_loader.py lines 147-189): per page —
clean, skip pages whose cleaned text is shorter than 80 characters, pack
into chunks, then wrap every chunk of length at least 120 with metadata. -/
def chunk_text_by_pages (pages_content : List PageData) (source_name : List Char)
    (chunk_size : Nat := 1500) (chunk_overlap : Nat := 250) : List PyDocument :=
  pages_content.flatMap fun pd =>
    let cleaned := clean_text pd.page_content
    if cleaned.length < 80 then []
    else
      let chunks := pack_text_into_chunks cleaned chunk_size chunk_overlap
      chunks.enum.filterMap fun ic =>
        if ic.2.length < 120 then none
        else some ⟨ic.2, source_name, pd.page_number, ic.1, chunks.length⟩

/-- Executable twin of `chunk_text_by_pages` (via `packTextExec`). -/
def chunkTextByPagesExec (pages_content : List PageData) (source_name : List Char)
    (chunk_size chunk_overlap : Nat) : List PyDocument :=
  pages_content.flatMap fun pd =>
    let cleaned := clean_text pd.page_content
    if cleaned.length < 80 then []
    else
      let chunks := packTextExec cleaned chunk_size chunk_overlap
      chunks.enum.filterMap fun ic =>
        if ic.2.length < 120 then none
        else some ⟨ic.2, source_name, pd.page_number, ic.1, chunks.length⟩

/-!  ## `app/retriever/query.py` — low-value filter, dedupe, retrieval  -/

/-- A langchain `Document` as seen by the retriever: content plus the
metadata the retriever reads (`metadata.get("source")`,
`metadata.get("page")`; absent keys give `none`). -/
structure RDoc where
  page_content : List Char
  source : Option (List Char)
  page : Option Int
deriving DecidableEq

/-- Embeds `Retriever._strip_leading_junk` (query.py lines 26-31) — character for
character the same code as `strip_leading_dots`. -/
def strip_leading_junk (text : List Char) : List Char :=
  stripJunkLoop (pyLstrip text)

/-- Embeds `Retriever._is_low_value_chunk` (query.py lines 51-86).  The two float
ratio comparisons are embedded exactly over the rationals by
cross-multiplication: `count/max(1,len) > 0.02` iff `max(1,len) < 50*count`,
and `digits/max(1,len) > 0.25` iff `max(1,len) < 4*digits`. -/
def is_low_value_chunk (text : List Char) : Bool :=
  let t := pyStrip text
  if t.length < 200 then true
  else
    let hd := (t.take 300).map Char.toLower
    if listContains ("references".toList) hd || listContains ("bibliography".toList) hd then
      true
    else if (decide (max 1 t.length < 50 * t.count ',')) &&
        (listContains ("openai".toList) hd || listContains ("university".toList) hd ||
         listContains ("google".toList) hd || listContains ("microsoft".toList) hd) then
      true
    else if (decide (max 1 t.length < 4 * t.countP Char.isDigit)) &&
        t.contains '\n' && decide (countWords t < 120) then
      true
    else false

/-- The dedupe key of `Retriever._dedupe` (query.py lines 39-43):
`(metadata.get("source"), metadata.get("page"), page_content[:120])`. -/
def dedupeKey (d : RDoc) : Option (List Char) × Option Int × List Char :=
  (d.source, d.page, d.page_content.take 120)

/-- The loop of `Retriever._dedupe` (query.py lines 35-49): keep a document
iff its key has not been seen before, accumulating seen keys. -/
def dedupeGo (seen : List (Option (List Char) × Option Int × List Char)) :
    List (RDoc × ℚ) → List (RDoc × ℚ)
  | [] => []
  | p :: rest =>
    if dedupeKey p.1 ∈ seen then dedupeGo seen rest
    else p :: dedupeGo (dedupeKey p.1 :: seen) rest

/-- Embeds `Retriever._dedupe` (query.py lines 33-49). -/
def dedupe (docs_with_scores : List (RDoc × ℚ)) : List (RDoc × ℚ) :=
  dedupeGo [] docs_with_scores

/-- Specification-side companion of `_dedupe`, following the spec's words:
keep the first occurrence of each `(source, page, first-120-characters)`
key and delete every later candidate with an equal key. -/
def keepFirstByKey : List (RDoc × ℚ) → List (RDoc × ℚ)
  | [] => []
  | x :: xs =>
    x :: keepFirstByKey (xs.filter fun y => decide (dedupeKey y.1 ≠ dedupeKey x.1))
termination_by l => l.length
decreasing_by
  simp only [List.length_cons]
  exact Nat.lt_succ_of_le (List.length_filter_le _ _)

/-- Retrieval strategy (query.py line 16): the configured string
`"mmr"`/`"similarity"`. -/
inductive Strategy
  | mmr
  | similarity
deriving DecidableEq

/-- The vector store consumed by the retriever, as a black box: its two query
methods (`mmr_search(query, k, fetch_k, lambda_mult)` and
`similarity_search_with_score(query, k)`). -/
structure Vectorstore where
  mmr_search : List Char → Nat → Nat → ℚ → List RDoc
  similarity_search_with_score : List Char → Nat → List (RDoc × ℚ)

/-- Retriever configuration (query.py lines 11-20). -/
structure RetrieverConfig where
  top_k : Nat
  strategy : Strategy
  fetch_k : Nat
  mmr_lambda : ℚ

/-- Embeds `Retriever.retrieve` (query.py lines 92-146), `with_scores=True` path.
MMR branch (lines 111-127): fetch, filter low-value chunks, truncate to
`top_k`, attach the sentinel score `0.0`.  Similarity branch (lines
129-142): fetch with scores, filter low-value chunks, dedupe, stable sort
ascending by score (Python `list.sort` with key `float(x[1])`), truncate. -/
def retrieve (vs : Vectorstore) (cfg : RetrieverConfig) (query : List Char)
    (top_k : Option Nat) : List (RDoc × ℚ) :=
  let k := top_k.getD cfg.top_k
  match cfg.strategy with
  | .mmr =>
    let docs := vs.mmr_search query (min cfg.fetch_k 50) cfg.fetch_k cfg.mmr_lambda
    let docs := docs.filter fun d => !is_low_value_chunk d.page_content
    (docs.take k).map fun d => (d, (0 : ℚ))
  | .similarity =>
    let results := vs.similarity_search_with_score query cfg.fetch_k
    let results := results.filter fun p => !is_low_value_chunk p.1.page_content
    let results := dedupe results
    (results.mergeSort fun a b => a.2 ≤ b.2).take k

/-- Round-half-to-even of the fraction `a / b` (for `b > 0`) to the nearest
integer, via floor division: the idealization of Python float rounding over
exact rationals. -/
def intRoundHalfEven (a b : ℤ) : ℤ :=
  let q := a.fdiv b
  let r := a.fmod b
  if 2 * r < b then q
  else if b < 2 * r then q + 1
  else if q % 2 = 0 then q else q + 1

/-- Python `f"{x:.4f}"` idealized over exact rationals: round half-to-even
at four decimal places and print with exactly four fractional digits. -/
def fmtFixed4 (x : ℚ) : List Char :=
  let v := intRoundHalfEven (x.num * 10000) (x.den : ℤ)
  let sgn := if v < 0 then ['-'] else []
  let a := v.natAbs
  let frac := (toString (a % 10000)).toList
  sgn ++ (toString (a / 10000)).toList ++ ['.'] ++
    (List.replicate (4 - frac.length) '0' ++ frac)

/-- Embeds `"\n".join(parts)`. -/
def joinNL : List (List Char) → List Char
  | [] => []
  | [x] => x
  | x :: y :: rest => x ++ '\n' :: joinNL (y :: rest)

/-- Embeds `Retriever.format_context` (query.py lines 152-178), tuple branch (the
pipeline always passes `(Document, score)` tuples): one block per document —
a header with ordinal, source (default `"Unknown"`), page (`"N/A"` when
absent) and the score formatted to four decimals when nonzero (Python
`if score`), then the junk-stripped content — joined with `"\n"`. -/
def format_context (documents : List (RDoc × ℚ)) : List Char :=
  let parts := documents.enum.map fun ip =>
    let doc := ip.2.1
    let score := ip.2.2
    let score_text :=
      if score = 0 then [] else " (score: ".toList ++ fmtFixed4 score ++ [')']
    let src := doc.source.getD ("Unknown".toList)
    let pg :=
      match doc.page with
      | some n => (toString n).toList
      | none => "N/A".toList
    "[Document ".toList ++ (toString (ip.1 + 1)).toList ++ " - Source: ".toList ++
      src ++ ", Page: ".toList ++ pg ++ score_text ++ [']'] ++ ['\n'] ++
      strip_leading_junk doc.page_content ++ ['\n']
  joinNL parts

/-!  ## `app/summarizer/ai_summary.py` — previews, relevance, pipeline  -/

/-- The punctuation class `[.,;:!?]` of `_preview_text`. -/
def isPunctSet (c : Char) : Bool :=
  c = '.' || c = ',' || c = ';' || c = ':' || c = '!' || c = '?'

/-- Embeds `re.sub` deleting whitespace before punctuation (ai_summary.py line 35): delete
every maximal whitespace run that is immediately followed by one of the
punctuation characters.  `pending` buffers the current whitespace run. -/
def rmSpacePunctGo (pending : List Char) : List Char → List Char
  | c :: rest =>
    if isPyWs c then rmSpacePunctGo (pending ++ [c]) rest
    else if isPunctSet c then c :: rmSpacePunctGo [] rest
    else pending ++ c :: rmSpacePunctGo [] rest
  | [] => pending

/-- Embeds `re.sub` removing a trailing word fragment (ai_summary.py line 47): remove the last
whitespace run together with everything after it; a string with no
whitespace is unchanged (the regex then has no match). -/
def dropLastWordFrag (l : List Char) : List Char :=
  let r := l.reverse
  let a := r.dropWhile (fun c => !isPyWs c)
  if a.isEmpty then l else (a.dropWhile isPyWs).reverse

/-- Embeds `_preview_text` (ai_summary.py lines 16-49): strip leading junk,
normalize line endings, collapse blank lines, join single newlines, remove
space-before-punctuation artifacts, collapse spaces, strip; return unchanged
if within `max_chars`, otherwise cut at `max_chars`, avoid cutting mid-word
(when `max_chars > 50`), and append an ellipsis. -/
def preview_text (text : List Char) (max_chars : Nat := 450) : List Char :=
  let raw := strip_leading_junk text
  let raw := normNewlines raw
  let raw := collapseNL3Go false raw
  let raw := mergeNLGo false raw
  let raw := rmSpacePunctGo [] raw
  let raw := pyStrip (collapseSpTabGo false raw)
  if raw.length ≤ max_chars then raw
  else
    let cut := pyRstrip (raw.take max_chars)
    let cut := if 50 < max_chars then pyRstrip (dropLastWordFrag cut) else cut
    cut ++ ['…']

/-- Python `round(x, 3)` idealized over exact rationals: the nearest
multiple of `1/1000`, ties to even. -/
def pyRound3 (x : ℚ) : ℚ :=
  Rat.divInt (intRoundHalfEven (x.num * 1000) (x.den : ℤ)) 1000

/-- The relevance computation of `RAGPipeline.query` (ai_summary.py lines
105-110): `1 / (1 + score)` rounded to three decimals when the score is a
positive number, `None` otherwise. -/
def relevance_of_score (score : ℚ) : Option ℚ :=
  if 0 < score then some (pyRound3 (1 / (1 + score))) else none

/-- One entry of the `sources` list built by `RAGPipeline.query` (ai_summary.py
lines 112-117).  `page = none` models the `"N/A"` default. -/
structure SourceEntry where
  source : List Char
  page : Option Int
  relevance : Option ℚ
  content_preview : List Char
deriving DecidableEq

/-- The `sources` loop of `RAGPipeline.query` (ai_summary.py lines 103-117). -/
def build_sources (retrieved_docs : List (RDoc × ℚ)) : List SourceEntry :=
  retrieved_docs.map fun p =>
    { source := p.1.source.getD ("Unknown".toList)
      page := p.1.page
      relevance := relevance_of_score p.2
      content_preview := preview_text p.1.page_content 450 }

/-- The result dictionary of `RAGPipeline.query`. -/
structure RagAnswer where
  answer : List Char
  sources : Option (List SourceEntry)
  retrieved_docs : Nat
deriving DecidableEq

/-- Embeds `RAGPipeline.query` (ai_summary.py lines 78-122).  The language model is
a black-box function of the formatted context and the question; the second
component of the result counts its invocations.  An empty retrieval returns
the fixed apology answer with an empty sources list and no model call;
otherwise the model is invoked once on the formatted context. -/
def rag_query (vs : Vectorstore) (cfg : RetrieverConfig)
    (llm : List Char → List Char → List Char) (question : List Char)
    (top_k : Option Nat) (return_sources : Bool) : RagAnswer × Nat :=
  let retrieved := retrieve vs cfg question top_k
  if retrieved.isEmpty then
    ({ answer := "I could not find relevant information to answer your question.".toList
       sources := some []
       retrieved_docs := 0 }, 0)
  else
    let context := format_context retrieved
    let response := llm context question
    ({ answer := response
       sources := if return_sources then some (build_sources retrieved) else none
       retrieved_docs := retrieved.length }, 1)

/-!  ## Concrete data used by witnesses and counterexamples  -/

/-- A 138-character chunk matching the definitional pattern
`"is defined as"`. -/
def defChunk : List Char :=
  ("Retrieval augmented generation is defined as the technique of grounding " ++
   "model answers in passages fetched from an external document index.").toList

/-- A 250-character chunk of plain text that passes the low-value filter. -/
def aChunk : List Char := List.replicate 250 'a'

/-- A concrete retrieval document built from `aChunk`. -/
def docA : RDoc := ⟨aChunk, none, none⟩

/-- A vector store returning nothing (an empty index). -/
def emptyVs : Vectorstore := ⟨fun _ _ _ _ => [], fun _ _ => []⟩

/-- A vector store whose similarity search returns a single scored document
and whose MMR search returns a single document. -/
def oneDocVs : Vectorstore := ⟨fun _ _ _ _ => [docA], fun _ _ => [(docA, 1)]⟩

/-- An MMR-strategy configuration. -/
def mmrCfg : RetrieverConfig := ⟨5, .mmr, 20, 6/10⟩

/-- A similarity-strategy configuration. -/
def simCfg : RetrieverConfig := ⟨5, .similarity, 20, 6/10⟩

/-- A page of 200 characters of prose. -/
def aPage : PageData := ⟨List.replicate 200 'a', 1⟩

/-- The document the builder produces from `aPage`. -/
def aPageDoc : PyDocument := ⟨List.replicate 200 'a', "src".toList, 1, 0, 1⟩

/-!  # Helper lemmas  -/

theorem startsJunk_head {c : Char} {rest : List Char}
    (h : startsJunk (c :: rest) = true) : isDotSetChar c = true := by
  simp only [startsJunk, List.isPrefixOf, Bool.or_eq_true, Bool.and_eq_true,
    beq_iff_eq, true_and, and_true] at h
  simp only [isDotSetChar, Bool.or_eq_true, decide_eq_true_eq]
  rcases h with (h | h) | h <;>
    first
      | exact Or.inl (Or.inl h.1.symm)
      | exact Or.inl (Or.inr h.1.symm)
      | exact Or.inl (Or.inl h.symm)
      | exact Or.inl (Or.inr h.symm)

theorem head_dropWhile_neg {p : Char → Bool} (l : List Char) {c : Char}
    {rest : List Char} (h : l.dropWhile p = c :: rest) : p c = false := by
  induction l with
  | nil => simp at h
  | cons a t ih =>
    by_cases ha : p a = true
    · rw [List.dropWhile_cons_of_pos ha] at h
      exact ih h
    · rw [List.dropWhile_cons_of_neg ha] at h
      cases h
      simpa using ha

theorem pyLstrip_head_not_ws (l : List Char) {c : Char} {rest : List Char}
    (h : pyLstrip l = c :: rest) : isPyWs c = false :=
  head_dropWhile_neg l h

theorem dropWhile_dropWhile_subset {p q : Char → Bool}
    (hpq : ∀ a, q a = true → p a = true) (l : List Char) :
    (l.dropWhile q).dropWhile p = l.dropWhile p := by
  induction l with
  | nil => rfl
  | cons c rest ih =>
    by_cases hq : q c = true
    · rw [List.dropWhile_cons_of_pos hq, ih,
        List.dropWhile_cons_of_pos (hpq c hq)]
    · rw [List.dropWhile_cons_of_neg (by simp_all)]

/-- The junk-stripping loop computes `dropWhile isJunkChar`, provided the
input does not begin with whitespace (which `strip_leading_dots` guarantees
by pre-stripping). -/
theorem stripJunkLoop_eq (t : List Char)
    (hws : ∀ c rest, t = c :: rest → isPyWs c = false) :
    stripJunkLoop t = t.dropWhile isJunkChar := by
  induction t using stripJunkLoop.induct with
  | case1 t h ih =>
    rw [stripJunkLoop, dif_pos h]
    rw [ih (fun c rest hc => pyLstrip_head_not_ws _ hc)]
    rw [pyLstrip, dropWhile_dropWhile_subset (fun a ha => by simp [isJunkChar, ha]),
      dropWhile_dropWhile_subset (fun a ha => by simp [isJunkChar, ha])]
  | case2 t h =>
    rw [stripJunkLoop, dif_neg h]
    cases t with
    | nil => rfl
    | cons c rest =>
      have hc : isJunkChar c = false := by
        have h1 : isPyWs c = false := hws c rest rfl
        have h2 : (c = '.') = False ∧ (c = '…') = False := by
          constructor <;>
          · by_contra hcontra
            simp only [eq_iff_iff, iff_false, not_not] at hcontra
            subst hcontra
            simp [startsJunk, List.isPrefixOf] at h
        simp [isJunkChar, isDotSetChar, h1, h2.1, h2.2]
        intro hsp
        subst hsp
        simp [isPyWs] at h1
      rw [List.dropWhile_cons_of_neg (by simp [hc])]

/-- The function `strip_leading_dots` computes `dropWhile isJunkChar`: it removes exactly
the maximal leading run of dots, ellipses and whitespace. -/
theorem strip_leading_dots_eq (t : List Char) :
    strip_leading_dots t = t.dropWhile isJunkChar := by
  rw [strip_leading_dots, stripJunkLoop_eq _ (fun c rest hc => pyLstrip_head_not_ws _ hc),
    pyLstrip, dropWhile_dropWhile_subset (fun a ha => by simp [isJunkChar, ha])]

theorem strip_leading_junk_eq (t : List Char) :
    strip_leading_junk t = t.dropWhile isJunkChar :=
  strip_leading_dots_eq t

theorem pack_text_into_chunks_eq (text : List Char) (cs ov : Nat) :
    pack_text_into_chunks text cs ov = packTextExec text cs ov := by
  have h : strip_leading_dots = fun c => c.dropWhile isJunkChar :=
    funext strip_leading_dots_eq
  rw [pack_text_into_chunks, packTextExec, h]

theorem chunk_text_by_pages_eq (pages : List PageData) (src : List Char)
    (cs ov : Nat) :
    chunk_text_by_pages pages src cs ov = chunkTextByPagesExec pages src cs ov := by
  simp only [chunk_text_by_pages, chunkTextByPagesExec, pack_text_into_chunks_eq]

/-!  # Claims  -/

/-- C10: the leading-junk stripper terminates (its loop body strictly
shortens the text at every iteration, which also makes the Lean embedding
total by well-founded recursion), its result never starts with `.`, `...`
or `…`, and an input that does not start with whitespace, `.` or `…` is
returned unchanged.  The identical code appears as `strip_leading_dots`
(pymupdf_loader.py), `Retriever._strip_leading_junk` (query.py) and
`_strip_leading_junk` (ai_summary.py); the first conjunct identifies the
latter with the former. -/
theorem claim10_strip_leading_junk (s : List Char) :
    strip_leading_junk s = strip_leading_dots s ∧
    (∀ c rest, strip_leading_dots s = c :: rest → c ≠ '.' ∧ c ≠ '…') ∧
    (strip_leading_dots s).length ≤ s.length ∧
    (∀ t : List Char, startsJunk t = true →
      (pyLstrip (t.dropWhile isDotSetChar)).length < t.length) ∧
    ((∀ c rest, s = c :: rest → isPyWs c = false ∧ c ≠ '.' ∧ c ≠ '…') →
      strip_leading_dots s = s) := by
  refine ⟨rfl, ?_, ?_, ?_, ?_⟩
  · intro c rest h
    rw [strip_leading_dots_eq] at h
    have hc := head_dropWhile_neg s h
    constructor <;>
    · intro hcontra
      subst hcontra
      simp [isJunkChar, isDotSetChar] at hc
  · rw [strip_leading_dots_eq]
    exact (List.dropWhile_sublist _).length_le
  · intro t ht
    cases t with
    | nil => simp [startsJunk] at ht
    | cons c rest =>
      have hc : isDotSetChar c = true := startsJunk_head ht
      calc (pyLstrip ((c :: rest).dropWhile isDotSetChar)).length
          ≤ ((c :: rest).dropWhile isDotSetChar).length :=
            (List.dropWhile_sublist _).length_le
        _ < (c :: rest).length := by
            rw [List.dropWhile_cons_of_pos hc]
            exact Nat.lt_succ_of_le (List.dropWhile_sublist _).length_le
  · intro hs
    rw [strip_leading_dots_eq]
    cases s with
    | nil => rfl
    | cons c rest =>
      obtain ⟨h1, h2, h3⟩ := hs c rest rfl
      have hc : isJunkChar c = false := by
        simp only [isJunkChar, isDotSetChar, Bool.or_eq_false_iff,
          decide_eq_false_iff_not]
        refine ⟨⟨⟨h2, h3⟩, ?_⟩, h1⟩
        intro hsp
        subst hsp
        simp [isPyWs] at h1
      rw [List.dropWhile_cons_of_neg (by simp [hc])]

/-- Witness for C10 at a concrete input. -/
theorem claim10_witness : strip_leading_dots ("abc".toList) = "abc".toList :=
  (claim10_strip_leading_junk ("abc".toList)).2.2.2.2 (by
    intro c rest h
    obtain ⟨rfl, -⟩ := List.cons.inj (show 'a' :: ['b', 'c'] = c :: rest from h)
    exact ⟨by decide, by decide, by decide⟩)

/-- C1 (amended): `_is_low_value_chunk` rejects every chunk whose stripped
text is shorter than 200 characters, with no exception for definitional
patterns — the code has no definitional-pattern branch at all. -/
theorem claim1_short_chunks_rejected (text : List Char)
    (h : (pyStrip text).length < 200) : is_low_value_chunk text = true := by
  simp only [is_low_value_chunk]
  rw [if_pos h]

/-- Witness for C1 at a concrete input. -/
theorem claim1_witness :
    (pyStrip ("short".toList)).length < 200 ∧
    is_low_value_chunk ("short".toList) = true :=
  ⟨by decide, claim1_short_chunks_rejected ("short".toList) (by decide)⟩

set_option maxRecDepth 100000 in
/-- C1 counterexample: a 138-character chunk containing the definitional
phrase `"is defined as"` (stripped length 138, so below 200 and above any
plausible secondary threshold such as 120) is nevertheless classified
low-value, contradicting the claim that such chunks are kept. -/
theorem claim1_counterexample :
    is_low_value_chunk defChunk = true ∧
    listContains ("is defined as".toList) (defChunk.map Char.toLower) = true ∧
    120 ≤ (pyStrip defChunk).length ∧ (pyStrip defChunk).length < 200 := by
  refine ⟨by decide, by decide, by decide, by decide⟩

/-- C2: when the retriever returns no documents, `RAGPipeline.query` returns
the fixed "not found" answer with `retrieved_docs = 0` and an empty sources
list, and the language model is never invoked (invocation count 0). -/
theorem claim2_empty_retrieval (vs : Vectorstore) (cfg : RetrieverConfig)
    (llm : List Char → List Char → List Char) (question : List Char)
    (top_k : Option Nat) (rs : Bool)
    (h : retrieve vs cfg question top_k = []) :
    (rag_query vs cfg llm question top_k rs).1.answer =
      "I could not find relevant information to answer your question.".toList ∧
    (rag_query vs cfg llm question top_k rs).1.retrieved_docs = 0 ∧
    (rag_query vs cfg llm question top_k rs).1.sources = some [] ∧
    (rag_query vs cfg llm question top_k rs).2 = 0 := by
  simp [rag_query, h]

/-- Witness for C2: an empty index with the MMR strategy retrieves nothing,
and the pipeline answers with the fixed text and zero model calls. -/
theorem claim2_witness :
    retrieve emptyVs mmrCfg ("q".toList) none = [] ∧
    (rag_query emptyVs mmrCfg (fun _ q => q) ("q".toList) none true).2 = 0 :=
  ⟨by decide,
   (claim2_empty_retrieval emptyVs mmrCfg (fun _ q => q) ("q".toList) none true
     (by decide)).2.2.2⟩

/-- C7: under the diversity (MMR) strategy every retrieved document carries
the sentinel score `0.0` — never a meaningful distance. -/
theorem claim7_mmr_sentinel_scores (vs : Vectorstore) (cfg : RetrieverConfig)
    (query : List Char) (top_k : Option Nat) (h : cfg.strategy = .mmr) :
    ∀ p ∈ retrieve vs cfg query top_k, p.2 = 0 := by
  intro p hp
  simp only [retrieve, h] at hp
  obtain ⟨d, -, rfl⟩ := List.mem_map.mp hp
  rfl

set_option maxRecDepth 100000 in
/-- Witness for C7 at a concrete vector store and configuration. -/
theorem claim7_witness :
    mmrCfg.strategy = .mmr ∧
    (docA, (0 : ℚ)) ∈ retrieve oneDocVs mmrCfg ("q".toList) none ∧
    ((docA, (0 : ℚ))).2 = 0 :=
  ⟨rfl, by decide,
   claim7_mmr_sentinel_scores oneDocVs mmrCfg ("q".toList) none rfl
     (docA, (0 : ℚ)) (by decide)⟩

/-- The dedupe loop, generalized over the initial seen-set: it computes
`keepFirstByKey` of the candidates whose keys are not yet seen. -/
theorem dedupeGo_eq_keepFirst (l : List (RDoc × ℚ)) :
    ∀ seen, dedupeGo seen l =
      keepFirstByKey (l.filter fun y => decide (dedupeKey y.1 ∉ seen)) := by
  induction l with
  | nil => intro seen; simp [dedupeGo, keepFirstByKey]
  | cons x xs ih =>
    intro seen
    by_cases hx : dedupeKey x.1 ∈ seen
    · rw [show dedupeGo seen (x :: xs) = dedupeGo seen xs by simp [dedupeGo, hx]]
      rw [ih seen]
      congr 1
      simp [List.filter_cons, hx]
    · rw [show dedupeGo seen (x :: xs) = x :: dedupeGo (dedupeKey x.1 :: seen) xs by
        simp [dedupeGo, hx]]
      rw [ih (dedupeKey x.1 :: seen)]
      rw [show (x :: xs).filter (fun y => decide (dedupeKey y.1 ∉ seen)) =
          x :: xs.filter (fun y => decide (dedupeKey y.1 ∉ seen)) by
        simp [List.filter_cons, hx]]
      rw [keepFirstByKey, List.filter_filter]
      have hf : xs.filter (fun a => decide (dedupeKey a.1 ≠ dedupeKey x.1) &&
            decide (dedupeKey a.1 ∉ seen)) =
          xs.filter (fun y => decide (dedupeKey y.1 ∉ dedupeKey x.1 :: seen)) := by
        apply List.filter_congr
        intro y _
        rcases Decidable.em (dedupeKey y.1 = dedupeKey x.1) with he | he
        · simp [he]
        · by_cases hm : dedupeKey y.1 ∈ seen
          · simp [he, hm]
          · simp [he, hm]
      rw [hf]

theorem dedupeGo_sublist (l : List (RDoc × ℚ)) :
    ∀ seen, (dedupeGo seen l).Sublist l := by
  induction l with
  | nil => intro seen; simp [dedupeGo]
  | cons x xs ih =>
    intro seen
    by_cases hx : dedupeKey x.1 ∈ seen
    · rw [show dedupeGo seen (x :: xs) = dedupeGo seen xs by simp [dedupeGo, hx]]
      exact (ih seen).cons x
    · rw [show dedupeGo seen (x :: xs) = x :: dedupeGo (dedupeKey x.1 :: seen) xs by
        simp [dedupeGo, hx]]
      exact (ih _).cons₂ x

theorem keepFirstByKey_subset :
    ∀ l : List (RDoc × ℚ), ∀ y ∈ keepFirstByKey l, y ∈ l := by
  intro l
  induction l using keepFirstByKey.induct with
  | case1 => simp [keepFirstByKey]
  | case2 x xs ih =>
    intro y hy
    rw [keepFirstByKey] at hy
    rcases List.mem_cons.mp hy with rfl | h
    · exact List.mem_cons_self _ _
    · exact List.mem_cons_of_mem x (List.mem_of_mem_filter (ih y h))

theorem keepFirstByKey_pairwise (l : List (RDoc × ℚ)) :
    (keepFirstByKey l).Pairwise (fun a b => dedupeKey a.1 ≠ dedupeKey b.1) := by
  induction l using keepFirstByKey.induct with
  | case1 => simp [keepFirstByKey]
  | case2 x xs ih =>
    rw [keepFirstByKey]
    refine List.Pairwise.cons ?_ ih
    intro y hy
    have h1 := keepFirstByKey_subset _ y hy
    have h2 := List.of_mem_filter h1
    simp only [decide_eq_true_eq] at h2
    exact fun heq => h2 heq.symm

/-- C6: `_dedupe` keeps exactly the first occurrence of each
`(source, page, first-120-characters)` key: it equals the keep-first
specification, it is a sublist of its input (the survivors keep their
original relative order), and the surviving keys are pairwise distinct (of
two candidates sharing a key only one survives, regardless of scores —
scores do not enter the key). -/
theorem claim6_dedupe_first_occurrence (l : List (RDoc × ℚ)) :
    dedupe l = keepFirstByKey l ∧
    (dedupe l).Sublist l ∧
    (dedupe l).Pairwise (fun a b => dedupeKey a.1 ≠ dedupeKey b.1) := by
  have heq : dedupe l = keepFirstByKey l := by
    rw [dedupe, dedupeGo_eq_keepFirst l []]
    congr 1
    apply List.filter_eq_self.mpr
    intro a _
    simp
  exact ⟨heq, dedupeGo_sublist l [], heq ▸ keepFirstByKey_pairwise l⟩

/-- Splitting the document builder at a cons cell. -/
theorem chunk_pages_cons (pd : PageData) (ps : List PageData) (src : List Char)
    (cs ov : Nat) :
    chunk_text_by_pages (pd :: ps) src cs ov =
      chunk_text_by_pages [pd] src cs ov ++ chunk_text_by_pages ps src cs ov := by
  simp [chunk_text_by_pages]

/-- A page whose cleaned text is below 80 characters contributes nothing. -/
theorem chunk_pages_short_page (pd : PageData) (src : List Char) (cs ov : Nat)
    (h : (clean_text pd.page_content).length < 80) :
    chunk_text_by_pages [pd] src cs ov = [] := by
  simp [chunk_text_by_pages, h]

/-- C5: every chunk document produced by the builder has content of at
least 120 characters (in particular none is empty), and pages whose cleaned
text is shorter than 80 characters contribute no chunks (restricting the
input to the pages meeting the minimum leaves the output unchanged). -/
theorem claim5_builder_invariants (pages : List PageData) (src : List Char)
    (cs ov : Nat) :
    (∀ d ∈ chunk_text_by_pages pages src cs ov, 120 ≤ d.page_content.length) ∧
    chunk_text_by_pages
        (pages.filter fun pd => decide (80 ≤ (clean_text pd.page_content).length))
        src cs ov
      = chunk_text_by_pages pages src cs ov := by
  constructor
  · intro d hd
    simp only [chunk_text_by_pages, List.mem_flatMap] at hd
    obtain ⟨pd, -, hin⟩ := hd
    split at hin
    · simp at hin
    · simp only [List.mem_filterMap] at hin
      obtain ⟨ic, -, hf⟩ := hin
      split at hf
      · simp at hf
      · cases hf
        show 120 ≤ ic.2.length
        omega
  · induction pages with
    | nil => rfl
    | cons pd ps ih =>
      rw [List.filter_cons]
      by_cases h : 80 ≤ (clean_text pd.page_content).length
      · rw [if_pos (by simpa using h)]
        rw [chunk_pages_cons, ih, ← chunk_pages_cons]
      · rw [if_neg (by simpa using h)]
        rw [ih, chunk_pages_cons,
          chunk_pages_short_page pd src cs ov (by omega), List.nil_append]

set_option maxRecDepth 100000 in
/-- Witness for C5: a 200-character page yields one document, whose content
meets the 120-character minimum. -/
theorem claim5_witness :
    aPageDoc ∈ chunk_text_by_pages [aPage] ("src".toList) 1500 250 ∧
    120 ≤ aPageDoc.page_content.length := by
  have hmem : aPageDoc ∈ chunk_text_by_pages [aPage] ("src".toList) 1500 250 := by
    rw [chunk_text_by_pages_eq]
    decide
  exact ⟨hmem,
    (claim5_builder_invariants [aPage] ("src".toList) 1500 250).1 aPageDoc hmem⟩

/-- C3: under the similarity strategy the retrieval result is sorted in
non-decreasing score (distance) order, has length at most the requested
`top_k`, draws all its elements from the low-value-filtered and deduplicated
candidate pool, and — whenever no truncation happens — is exactly that pool
up to permutation (the sort). -/
theorem claim3_similarity_ordering (vs : Vectorstore) (cfg : RetrieverConfig)
    (query : List Char) (top_k : Option Nat) (h : cfg.strategy = .similarity) :
    (retrieve vs cfg query top_k).Pairwise (fun a b => a.2 ≤ b.2) ∧
    (retrieve vs cfg query top_k).length ≤ top_k.getD cfg.top_k ∧
    (∀ x ∈ retrieve vs cfg query top_k,
      x ∈ dedupe ((vs.similarity_search_with_score query cfg.fetch_k).filter
        fun p => !is_low_value_chunk p.1.page_content)) ∧
    ((dedupe ((vs.similarity_search_with_score query cfg.fetch_k).filter
        fun p => !is_low_value_chunk p.1.page_content)).length ≤ top_k.getD cfg.top_k →
      (retrieve vs cfg query top_k).Perm
        (dedupe ((vs.similarity_search_with_score query cfg.fetch_k).filter
          fun p => !is_low_value_chunk p.1.page_content))) := by
  have hretr : retrieve vs cfg query top_k =
      ((dedupe ((vs.similarity_search_with_score query cfg.fetch_k).filter
        fun p => !is_low_value_chunk p.1.page_content)).mergeSort
          fun a b => decide (a.2 ≤ b.2)).take (top_k.getD cfg.top_k) := by
    simp only [retrieve, h]
  have htrans : ∀ a b c : RDoc × ℚ, decide (a.2 ≤ b.2) = true →
      decide (b.2 ≤ c.2) = true → decide (a.2 ≤ c.2) = true := by
    intro a b c hab hbc
    simp only [decide_eq_true_eq] at *
    exact le_trans hab hbc
  have htotal : ∀ a b : RDoc × ℚ,
      (decide (a.2 ≤ b.2) || decide (b.2 ≤ a.2)) = true := by
    intro a b
    rcases le_total a.2 b.2 with hl | hl <;> simp [hl]
  have hsorted := List.sorted_mergeSort htrans htotal
    (dedupe ((vs.similarity_search_with_score query cfg.fetch_k).filter
      fun p => !is_low_value_chunk p.1.page_content))
  have hperm := List.mergeSort_perm
    (dedupe ((vs.similarity_search_with_score query cfg.fetch_k).filter
      fun p => !is_low_value_chunk p.1.page_content))
    (fun a b => decide (a.2 ≤ b.2))
  refine ⟨?_, ?_, ?_, ?_⟩
  · rw [hretr]
    exact (List.Pairwise.sublist (List.take_sublist _ _) hsorted).imp
      (fun hab => by simpa using hab)
  · rw [hretr, List.length_take]
    exact min_le_left _ _
  · intro x hx
    rw [hretr] at hx
    exact hperm.subset ((List.take_sublist _ _).subset hx)
  · intro hlen
    rw [hretr, List.take_of_length_le (by rw [hperm.length_eq]; exact hlen)]
    exact hperm

set_option maxRecDepth 100000 in
/-- Witness for C3: a one-document index under the similarity strategy; the
retrieved document belongs to the filtered, deduplicated pool. -/
theorem claim3_witness :
    (docA, (1 : ℚ)) ∈ dedupe ((oneDocVs.similarity_search_with_score ("q".toList)
      simCfg.fetch_k).filter fun p => !is_low_value_chunk p.1.page_content) := by
  have hpool : dedupe ((oneDocVs.similarity_search_with_score ("q".toList)
      simCfg.fetch_k).filter fun p => !is_low_value_chunk p.1.page_content)
      = [(docA, (1 : ℚ))] := by decide
  have hmem : (docA, (1 : ℚ)) ∈ retrieve oneDocVs simCfg ("q".toList) none := by
    have hr : retrieve oneDocVs simCfg ("q".toList) none =
        ((dedupe ((oneDocVs.similarity_search_with_score ("q".toList)
          simCfg.fetch_k).filter fun p => !is_low_value_chunk p.1.page_content)).mergeSort
            fun a b => decide (a.2 ≤ b.2)).take (Option.getD none simCfg.top_k) := rfl
    rw [hr, hpool, List.mergeSort_singleton]
    decide
  exact (claim3_similarity_ordering oneDocVs simCfg ("q".toList) none rfl).2.2.1
    (docA, (1 : ℚ)) hmem

theorem pyStrip_length_le (l : List Char) : (pyStrip l).length ≤ l.length := by
  simp only [pyStrip, pyRstrip, pyLstrip, List.length_reverse]
  calc (List.dropWhile isPyWs (List.dropWhile isPyWs l).reverse).length
      ≤ (List.dropWhile isPyWs l).reverse.length := (List.dropWhile_sublist _).length_le
    _ = (List.dropWhile isPyWs l).length := List.length_reverse _
    _ ≤ l.length := (List.dropWhile_sublist _).length_le

theorem pyRstrip_pyStrip (l : List Char) : pyRstrip (pyStrip l) = pyStrip l := by
  simp only [pyStrip, pyRstrip, List.reverse_reverse]
  rw [dropWhile_dropWhile_subset (fun a ha => ha)]

theorem pyRstrip_suffix {L s : List Char} (hL : pyRstrip L = L) (hs : s <:+ L) :
    pyRstrip s = s := by
  obtain ⟨pre, rfl⟩ := hs
  have h1 : List.dropWhile isPyWs ((pre ++ s).reverse) = (pre ++ s).reverse := by
    have := congrArg List.reverse hL
    simpa [pyRstrip] using this
  cases hrev : s.reverse with
  | nil =>
    have hs0 : s = [] := by simpa using congrArg List.reverse hrev
    simp [hs0, pyRstrip]
  | cons c cs =>
    have h2 : (pre ++ s).reverse = c :: (cs ++ pre.reverse) := by
      rw [List.reverse_append, hrev]
      simp
    have hc : isPyWs c = false := by
      by_cases hcc : isPyWs c = true
      · exfalso
        rw [h2, List.dropWhile_cons_of_pos hcc] at h1
        have hlen := congrArg List.length h1
        have := (List.dropWhile_sublist (p := isPyWs)
          (l := cs ++ pre.reverse)).length_le
        simp only [List.length_cons] at hlen
        omega
      · simpa using hcc
    rw [pyRstrip, hrev, List.dropWhile_cons_of_neg (by simp [hc]), ← hrev,
      List.reverse_reverse]

theorem pyStrip_drop_suffix {L : List Char} (hL : pyRstrip L = L) (n : Nat) :
    pyStrip (L.drop n) <:+ L ∧ pyStrip (L.drop n) = pyLstrip (L.drop n) := by
  have hsuf : L.drop n <:+ L := List.drop_suffix n L
  have hls : pyLstrip (L.drop n) <:+ L :=
    (List.dropWhile_suffix _).trans hsuf
  have heq : pyStrip (L.drop n) = pyLstrip (L.drop n) :=
    pyRstrip_suffix hL hls
  exact ⟨heq ▸ hls, heq⟩

/-- Characterization of `apply_overlap`: the seed list is empty or a single
nonempty text of at most `overlap_chars` characters which is a suffix of the
stripped overlap window — the window trimmed to just after the regex
boundary when one is found, the raw stripped window otherwise. -/
theorem apply_overlap_spec (prev : List Char) (ov : Nat) :
    apply_overlap prev ov = [] ∨
    ∃ t, apply_overlap prev ov = [t] ∧ t ≠ [] ∧ t.length ≤ ov ∧
      t <:+ pyStrip (takeRightN ov prev) ∧
      (match findBoundary (pyStrip (takeRightN ov prev)) with
       | some i => t = pyStrip ((pyStrip (takeRightN ov prev)).drop (i + 1))
       | none => t = pyStrip (takeRightN ov prev)) := by
  by_cases hg : (decide (ov = 0) || prev.isEmpty) = true
  · left
    simp only [apply_overlap]
    rw [if_pos (by simpa using hg)]
  · have hwin : (pyStrip (takeRightN ov prev)).length ≤ ov := by
      have h1 := pyStrip_length_le (takeRightN ov prev)
      have h2 : (takeRightN ov prev).length ≤ ov := by
        simp only [takeRightN, List.length_drop]
        omega
      omega
    have hrs : pyRstrip (pyStrip (takeRightN ov prev)) = pyStrip (takeRightN ov prev) :=
      pyRstrip_pyStrip _
    simp only [apply_overlap]
    rw [if_neg (by simpa using hg)]
    cases hb : findBoundary (pyStrip (takeRightN ov prev)) with
    | none =>
      simp only [hb]
      by_cases hE : (pyStrip (takeRightN ov prev)).isEmpty
      · left
        rw [if_pos hE]
      · right
        refine ⟨pyStrip (takeRightN ov prev), by rw [if_neg hE], ?_, hwin,
          List.suffix_refl _, by simp [hb]⟩
        simpa using hE
    | some i =>
      simp only [hb]
      obtain ⟨hsuf, -⟩ := pyStrip_drop_suffix hrs (i + 1)
      by_cases hE : (pyStrip ((pyStrip (takeRightN ov prev)).drop (i + 1))).isEmpty
      · left
        rw [if_pos hE]
      · right
        refine ⟨pyStrip ((pyStrip (takeRightN ov prev)).drop (i + 1)),
          by rw [if_neg hE], by simpa using hE, ?_, hsuf, by simp [hb]⟩
        exact le_trans hsuf.length_le hwin

/-- C9: overlap-consistency of the packer.  When the loop body does not
close a chunk, the next state merely appends the unit; when it closes chunk
`A`, the next current chunk starts with `apply_overlap A chunk_overlap`
followed by the unit.  The seed produced by `apply_overlap` is empty or a
single nonempty suffix of the whitespace-trimmed last-`chunk_overlap`
window of `A`, trimmed to just after the last sentence boundary found in
that window, or the raw trimmed window when no boundary is found. -/
theorem claim9_overlap_seed (cs ov : Nat) (st : List (List Char) × List (List Char))
    (sep : Nat) (u : List Char) (prev : List Char) (hov : 0 < ov) :
    ((pushUnit cs ov st sep u).1 = st.1 →
      (pushUnit cs ov st sep u).2 = st.2 ++ [u]) ∧
    ((pushUnit cs ov st sep u).1 ≠ st.1 →
      (pushUnit cs ov st sep u).1 = st.1 ++ [pyStrip (joinNN st.2)] ∧
      (pushUnit cs ov st sep u).2 =
        apply_overlap (pyStrip (joinNN st.2)) ov ++ [u]) ∧
    (apply_overlap prev ov = [] ∨
      ∃ t, apply_overlap prev ov = [t] ∧ t ≠ [] ∧ t.length ≤ ov ∧
        t <:+ pyStrip (takeRightN ov prev) ∧
        (match findBoundary (pyStrip (takeRightN ov prev)) with
         | some i => t = pyStrip ((pyStrip (takeRightN ov prev)).drop (i + 1))
         | none => t = pyStrip (takeRightN ov prev))) := by
  refine ⟨?_, ?_, apply_overlap_spec prev ov⟩ <;>
  · simp only [pushUnit]
    by_cases hguard :
        (!st.2.isEmpty && decide (cs < clen st.2 + sep + u.length)) = true
    · rw [if_pos hguard]
      intro habs
      first
        | · exfalso
            have := congrArg List.length habs
            simp at this
        | exact ⟨rfl, rfl⟩
    · rw [if_neg hguard]
      intro habs
      first
        | rfl
        | exact absurd rfl habs

/-- Witness for C9 at concrete inputs: the unit fits, so no chunk is closed
and the unit is appended to the current chunk. -/
theorem claim9_witness :
    (pushUnit 5 15 ([], [("ab".toList)]) 1 ("x".toList)).2 =
      [("ab".toList)] ++ [("x".toList)] :=
  (claim9_overlap_seed 5 15 ([], [("ab".toList)]) 1 ("x".toList)
    ("First part. Second sen".toList) (by decide)).1 (by decide)

theorem intRoundHalfEven_nonneg {a b : ℤ} (ha : 0 ≤ a) (hb : 0 < b) :
    0 ≤ intRoundHalfEven a b := by
  have hq : 0 ≤ a.fdiv b := Int.fdiv_nonneg ha hb.le
  simp only [intRoundHalfEven]
  split_ifs <;> omega

theorem intRoundHalfEven_le {a b c : ℤ} (ha : 0 ≤ a) (hb : 0 < b)
    (h : a ≤ c * b) : intRoundHalfEven a b ≤ c := by
  have hqr : b * a.fdiv b + a.fmod b = a := Int.fdiv_add_fmod a b
  have hr0 : 0 ≤ a.fmod b := Int.fmod_nonneg ha hb.le
  have hrb : a.fmod b < b := Int.fmod_lt_of_pos a hb
  have hcomm : c * b = b * c := mul_comm c b
  have hble : b * a.fdiv b ≤ b * c := by omega
  have hq_le : a.fdiv b ≤ c := le_of_mul_le_mul_left hble hb
  have hstrict : 1 ≤ a.fmod b → a.fdiv b < c := by
    intro hr1
    have hlt : b * a.fdiv b < b * c := by omega
    exact lt_of_mul_lt_mul_left hlt hb.le
  simp only [intRoundHalfEven]
  split_ifs with h1 h2 h3
  · exact hq_le
  · have := hstrict (by omega)
    omega
  · exact hq_le
  · have := hstrict (by omega)
    omega

theorem pyRound3_bounds {x : ℚ} (h0 : 0 < x) (h1 : x ≤ 1) :
    0 ≤ pyRound3 x ∧ pyRound3 x ≤ 1 := by
  have hdpos : (0:ℤ) < (x.den : ℤ) := by
    exact_mod_cast Nat.pos_of_ne_zero x.den_nz
  have hnum0 : 0 < x.num := Rat.num_pos.mpr h0
  have hnd : x.num ≤ (x.den : ℤ) := by
    have hx : (x.num : ℚ) / (x.den : ℚ) = x := Rat.num_div_den x
    rw [← hx] at h1
    rw [div_le_one (by exact_mod_cast hdpos)] at h1
    exact_mod_cast h1
  have ha : 0 ≤ x.num * 1000 := by positivity
  have hab : x.num * 1000 ≤ 1000 * (x.den : ℤ) := by omega
  have hlo := intRoundHalfEven_nonneg ha hdpos
  have hhi := intRoundHalfEven_le ha hdpos hab
  constructor
  · rw [pyRound3, Rat.divInt_eq_div]
    apply div_nonneg
    · exact_mod_cast hlo
    · norm_num
  · rw [pyRound3, Rat.divInt_eq_div]
    rw [div_le_one (by norm_num)]
    exact_mod_cast hhi

theorem one_div_one_add_pos (s : ℚ) (hs : 0 < s) :
    1 / (1 + s) = Rat.divInt (s.den : ℤ) (s.num + s.den) := by
  have hd0 : (0:ℚ) < (s.den : ℚ) := by
    exact_mod_cast Nat.pos_of_ne_zero s.den_nz
  have hn0 : (0:ℚ) < (s.num : ℚ) := by
    exact_mod_cast Rat.num_pos.mpr hs
  have hds : (s.den : ℚ) ≠ 0 := ne_of_gt hd0
  have hx : (s.num : ℚ) / (s.den : ℚ) = s := Rat.num_div_den s
  have key : (s.num : ℚ) = s * (s.den : ℚ) := (div_eq_iff hds).mp hx
  have hone : (1 : ℚ) + s ≠ 0 := by positivity
  have hsum : (s.num : ℚ) + (s.den : ℚ) ≠ 0 := by
    have : (0:ℚ) < (s.num : ℚ) + (s.den : ℚ) := by linarith
    exact ne_of_gt this
  rw [Rat.divInt_eq_div]
  push_cast
  rw [div_eq_div_iff hone hsum, key]
  ring

theorem inv_one_add_bounds (s : ℚ) (hs : 0 < s) :
    0 < 1 / (1 + s) ∧ 1 / (1 + s) ≤ 1 := by
  have h1 : (0:ℚ) < 1 + s := by linarith
  constructor
  · positivity
  · rw [div_le_one h1]
    linarith

/-- C8 (amended): each source citation's relevance is
`round(1 / (1 + score), 3)` — the exact formula rounded half-to-even at
three decimals — when the score is positive, `None` otherwise; every
non-null relevance lies in the closed interval `[0, 1]` (rounding can reach
`0` for very distant chunks and is the reason the original open lower bound
fails). -/
theorem claim8_relevance (retrieved : List (RDoc × ℚ)) (e : SourceEntry)
    (he : e ∈ build_sources retrieved) :
    ∃ p ∈ retrieved,
      e.relevance = relevance_of_score p.2 ∧
      (0 < p.2 → e.relevance = some (pyRound3 (1 / (1 + p.2)))) ∧
      (¬ 0 < p.2 → e.relevance = none) ∧
      (∀ r : ℚ, e.relevance = some r → 0 ≤ r ∧ r ≤ 1) := by
  simp only [build_sources, List.mem_map] at he
  obtain ⟨p, hp, rfl⟩ := he
  refine ⟨p, hp, rfl, ?_, ?_, ?_⟩
  · intro hpos
    show relevance_of_score p.2 = _
    rw [relevance_of_score, if_pos hpos]
  · intro hneg
    show relevance_of_score p.2 = none
    rw [relevance_of_score, if_neg hneg]
  · intro r hr
    replace hr : relevance_of_score p.2 = some r := hr
    rw [relevance_of_score] at hr
    split_ifs at hr with hpos
    cases hr
    obtain ⟨hb0, hb1⟩ := inv_one_add_bounds p.2 hpos
    exact pyRound3_bounds hb0 hb1

/-- C8 counterexample: at score 10000 the computed relevance is exactly `0`
(rounded down from `1/10001`), which is neither equal to `1/(1+score)` nor
inside the open-below interval `(0, 1]` the claim asserts. -/
theorem claim8_counterexample :
    (build_sources [(docA, (10000 : ℚ))]).map SourceEntry.relevance = [some 0] ∧
    ¬ (0 < (0 : ℚ)) ∧
    pyRound3 (1 / (1 + (10000 : ℚ))) ≠ 1 / (1 + (10000 : ℚ)) := by
  refine ⟨?_, by norm_num, ?_⟩
  · simp only [build_sources, List.map_cons, List.map_nil, List.cons.injEq, and_true]
    show relevance_of_score 10000 = some 0
    rw [relevance_of_score, if_pos (by norm_num)]
    rw [one_div_one_add_pos _ (by norm_num)]
    decide
  · rw [one_div_one_add_pos _ (by norm_num)]
    decide

/-- Witness for C8 at a concrete scored document. -/
theorem claim8_witness :
    ∃ p ∈ [(docA, (10000 : ℚ))],
      (SourceEntry.mk (docA.source.getD ("Unknown".toList)) docA.page
        (relevance_of_score 10000) (preview_text docA.page_content 450)).relevance
        = relevance_of_score p.2 ∧
      (0 < p.2 →
        (SourceEntry.mk (docA.source.getD ("Unknown".toList)) docA.page
          (relevance_of_score 10000) (preview_text docA.page_content 450)).relevance
          = some (pyRound3 (1 / (1 + p.2)))) ∧
      (¬ 0 < p.2 →
        (SourceEntry.mk (docA.source.getD ("Unknown".toList)) docA.page
          (relevance_of_score 10000) (preview_text docA.page_content 450)).relevance
          = none) ∧
      (∀ r : ℚ,
        (SourceEntry.mk (docA.source.getD ("Unknown".toList)) docA.page
          (relevance_of_score 10000) (preview_text docA.page_content 450)).relevance
          = some r → 0 ≤ r ∧ r ≤ 1) :=
  claim8_relevance [(docA, (10000 : ℚ))] _ (List.mem_singleton.mpr rfl)

theorem le_foldr_max (x : Nat) (l : List Nat) (hx : x ∈ l) :
    x ≤ l.foldr max 0 := by
  induction l with
  | nil => simp at hx
  | cons a t ih =>
    rw [List.foldr_cons]
    rcases List.mem_cons.mp hx with rfl | h
    · exact le_max_left _ _
    · exact le_trans (ih h) (le_max_right _ _)

theorem packUnits_mem (cs : Nat) (text : List Char) :
    ∀ su ∈ packUnits cs text, 1 ≤ su.1 ∧ su.2.length ≤ maxUnitLen cs text := by
  intro su hsu
  constructor
  · simp only [packUnits, List.mem_flatMap] at hsu
    obtain ⟨p, -, hin⟩ := hsu
    split at hin
    · obtain rfl := List.mem_singleton.mp hin
      norm_num
    · obtain ⟨s, -, rfl⟩ := List.mem_map.mp hin
      norm_num
  · exact le_foldr_max _ _ (List.mem_map_of_mem _ hsu)

theorem joinNN_length (cur : List (List Char)) :
    (joinNN cur).length = (cur.map List.length).sum + 2 * (cur.length - 1) := by
  induction cur using joinNN.induct with
  | case1 => simp [joinNN]
  | case2 x => simp [joinNN]
  | case3 x y rest ih =>
    rw [joinNN]
    simp only [List.length_append, List.length_cons]
    rw [ih]
    simp only [List.map_cons, List.sum_cons, List.length_cons]
    omega

theorem joinNN_le_two_clen (cur : List (List Char)) :
    (joinNN cur).length ≤ 2 * clen cur := by
  rw [joinNN_length]
  simp only [clen]
  omega

theorem clen_singleton (u : List Char) : clen [u] = u.length := by
  simp [clen]

theorem clen_pair (t u : List Char) : clen [t, u] = t.length + 1 + u.length := by
  simp [clen]
  omega

theorem clen_append_cons (cur : List (List Char)) (u : List Char) (h : cur ≠ []) :
    clen (cur ++ [u]) = clen cur + 1 + u.length := by
  simp only [clen, List.map_append, List.sum_append, List.length_append,
    List.map_cons, List.sum_cons, List.map_nil, List.sum_nil, List.length_cons,
    List.length_nil]
  have : 1 ≤ cur.length := List.length_pos.mpr h
  omega

theorem pushUnit_preserve (cs ov M0 : Nat) (st : List (List Char) × List (List Char))
    (sep : Nat) (u : List Char) (hsep : 1 ≤ sep) (hu : u.length ≤ M0)
    (h1 : ∀ c ∈ st.1, c.length ≤ 2 * max cs (ov + 1 + M0))
    (h2 : st.2 = [] ∨ clen st.2 ≤ max cs (ov + 1 + M0)) :
    (∀ c ∈ (pushUnit cs ov st sep u).1, c.length ≤ 2 * max cs (ov + 1 + M0)) ∧
    ((pushUnit cs ov st sep u).2 = [] ∨
      clen (pushUnit cs ov st sep u).2 ≤ max cs (ov + 1 + M0)) := by
  have hcs : cs ≤ max cs (ov + 1 + M0) := le_max_left _ _
  have hov1 : ov + 1 + M0 ≤ max cs (ov + 1 + M0) := le_max_right _ _
  simp only [pushUnit]
  by_cases hguard : (!st.2.isEmpty && decide (cs < clen st.2 + sep + u.length)) = true
  · rw [if_pos hguard]
    have hne : st.2 ≠ [] := by
      have hg2 := hguard
      rw [Bool.and_eq_true] at hg2
      obtain ⟨ha, -⟩ := hg2
      intro habs
      rw [habs] at ha
      simp at ha
    have hclen : clen st.2 ≤ max cs (ov + 1 + M0) := h2.resolve_left hne
    constructor
    · intro c hc
      rcases List.mem_append.mp hc with hmem | hmem
      · exact h1 c hmem
      · rw [List.mem_singleton] at hmem
        subst hmem
        calc (pyStrip (joinNN st.2)).length
            ≤ (joinNN st.2).length := pyStrip_length_le _
          _ ≤ 2 * clen st.2 := joinNN_le_two_clen _
          _ ≤ 2 * max cs (ov + 1 + M0) := by omega
    · right
      show clen (apply_overlap (pyStrip (joinNN st.2)) ov ++ [u]) ≤ max cs (ov + 1 + M0)
      rcases apply_overlap_spec (pyStrip (joinNN st.2)) ov with hseed | ⟨t, hseed, -, htlen, -, -⟩
      · rw [hseed, List.nil_append, clen_singleton]
        omega
      · rw [hseed]
        show clen [t, u] ≤ max cs (ov + 1 + M0)
        rw [clen_pair]
        omega
  · rw [if_neg hguard]
    refine ⟨fun c hc => h1 c hc, Or.inr ?_⟩
    show clen (st.2 ++ [u]) ≤ max cs (ov + 1 + M0)
    by_cases hne : st.2 = []
    · rw [hne, List.nil_append, clen_singleton]
      omega
    · have hfit : ¬ (cs < clen st.2 + sep + u.length) := by
        intro hlt
        apply hguard
        have hie : st.2.isEmpty = false := by
          cases hst : st.2 with
          | nil => exact absurd hst hne
          | cons a l => rfl
        simp [hie, hlt]
      rw [clen_append_cons _ _ hne]
      have hle := h2.resolve_left hne
      omega

theorem packFold_invariant (cs ov M0 : Nat) (units : List (Nat × List Char)) :
    ∀ (st : List (List Char) × List (List Char)),
      (∀ su ∈ units, 1 ≤ su.1 ∧ su.2.length ≤ M0) →
      (∀ c ∈ st.1, c.length ≤ 2 * max cs (ov + 1 + M0)) →
      (st.2 = [] ∨ clen st.2 ≤ max cs (ov + 1 + M0)) →
      (∀ c ∈ (units.foldl (fun st su => pushUnit cs ov st su.1 su.2) st).1,
        c.length ≤ 2 * max cs (ov + 1 + M0)) ∧
      ((units.foldl (fun st su => pushUnit cs ov st su.1 su.2) st).2 = [] ∨
        clen (units.foldl (fun st su => pushUnit cs ov st su.1 su.2) st).2
          ≤ max cs (ov + 1 + M0)) := by
  induction units with
  | nil =>
    intro st _ h1 h2
    exact ⟨h1, h2⟩
  | cons su us ih =>
    intro st hu h1 h2
    rw [List.foldl_cons]
    obtain ⟨hsep, hulen⟩ := hu su (List.mem_cons_self _ _)
    obtain ⟨h1', h2'⟩ := pushUnit_preserve cs ov M0 st su.1 su.2 hsep hulen h1 h2
    exact ih _ (fun x hx => hu x (List.mem_cons_of_mem _ hx)) h1' h2'

theorem packChunksRaw_bound (text : List Char) (cs ov : Nat) :
    ∀ c ∈ packChunksRaw text cs ov,
      c.length ≤ 2 * max cs (ov + 1 + maxUnitLen cs text) := by
  intro c hc
  obtain ⟨hA, hB⟩ := packFold_invariant cs ov (maxUnitLen cs text)
    (packUnits cs text) ([], []) (packUnits_mem cs text) (by simp) (Or.inl rfl)
  simp only [packChunksRaw] at hc
  split at hc
  · rcases List.mem_append.mp hc with hmem | hmem
    · exact hA c hmem
    · rw [List.mem_singleton] at hmem
      subst hmem
      rename_i hcond
      have hne : ((packUnits cs text).foldl
          (fun st su => pushUnit cs ov st su.1 su.2) ([], [])).2 ≠ [] := by
        intro habs
        rw [habs] at hcond
        simp at hcond
      have hclen := hB.resolve_left hne
      calc (pyStrip (joinNN _)).length
          ≤ (joinNN _).length := pyStrip_length_le _
        _ ≤ 2 * clen _ := joinNN_le_two_clen _
        _ ≤ 2 * max cs (ov + 1 + maxUnitLen cs text) := by omega
  · exact hA c hc

/-- C4 (amended): `chunk_size` is only an approximate soft cap.  Sentences
and paragraphs are never truncated — every chunk is a join of whole packable
units — but because the length check under-counts separators (1 instead of
2 characters each) and the overlap seed plus the first unit after a flush
are appended unchecked, a chunk may exceed `chunk_size` even when no single
sentence does (see the counterexample).  The provable guarantee is that
every emitted chunk has length at most
`2 * max chunk_size (chunk_overlap + 1 + L)`, where `L` is the length of
the longest packable unit of the text. -/
theorem claim4_soft_cap (text : List Char) (cs ov : Nat) :
    ∀ c ∈ pack_text_into_chunks text cs ov,
      c.length ≤ 2 * max cs (ov + 1 + maxUnitLen cs text) := by
  intro c hc
  simp only [pack_text_into_chunks, List.mem_map] at hc
  obtain ⟨c0, hc0, rfl⟩ := hc
  have hraw : c0 ∈ packChunksRaw text cs ov := List.mem_of_mem_filter hc0
  have hb := packChunksRaw_bound text cs ov c0 hraw
  calc (strip_leading_dots c0).length ≤ c0.length := by
        rw [strip_leading_dots_eq]
        exact (List.dropWhile_sublist _).length_le
    _ ≤ _ := hb

/-- C4 counterexample: three 4-character paragraphs with `chunk_size = 15`
and no overlap are packed into a single 16-character chunk — the chunk
exceeds `chunk_size` although it is not a single over-long sentence (every
paragraph and every sentence of the input has length 4 ≤ 15). -/
theorem claim4_counterexample :
    pack_text_into_chunks ("aaaa\n\nbbbb\n\ncccc".toList) 15 0
      = [("aaaa\n\nbbbb\n\ncccc".toList)] ∧
    ("aaaa\n\nbbbb\n\ncccc".toList).length = 16 ∧
    (∀ p ∈ split_into_paragraphs ("aaaa\n\nbbbb\n\ncccc".toList), p.length ≤ 15 ∧
      ∀ s ∈ split_into_sentences p, s.length ≤ 15) ∧
    maxUnitLen 15 ("aaaa\n\nbbbb\n\ncccc".toList) = 4 := by
  refine ⟨?_, by decide, by decide, by decide⟩
  rw [pack_text_into_chunks_eq]
  decide

/-- Witness for C4 at the same concrete input. -/
theorem claim4_witness :
    ("aaaa\n\nbbbb\n\ncccc".toList).length ≤
      2 * max 15 (0 + 1 + maxUnitLen 15 ("aaaa\n\nbbbb\n\ncccc".toList)) :=
  claim4_soft_cap ("aaaa\n\nbbbb\n\ncccc".toList) 15 0 _
    (by rw [pack_text_into_chunks_eq]; decide)
